import Mathlib

/-!
Verification of the version-range planning and attw-failure reconciliation core
of `packages/dtslint/src/index.ts` (function `runTests` and its helpers
`maxVersion` and `next`), as a shallow embedding.

Version identifiers are modelled as a string together with the rational number
that JavaScript `parseFloat` assigns to the string (scaled to an integer); every numeric comparison in
the source goes through `parseFloat`, and every identity comparison (`indexOf`,
`===`) is string identity, which determines the numeric value.  A JavaScript
`undefined` flowing through a version-typed variable is modelled as `none`
(and `parseFloat(undefined)` is NaN, every comparison with which is false).
Thrown errors / failed assertions are modelled with `Except.error`.
-/

namespace Dtslint

/-- Version identifier: the version string together with the numeric value that
JavaScript `parseFloat` assigns to it, scaled by ten to an integer (exact for
the one-decimal `major.minor` version strings the tool works with; the scaling
is a strictly monotone embedding, and the source only ever compares parseFloat
results, never does arithmetic on them). -/
structure TSVersion where
  str : String
  val : Int
deriving DecidableEq, Repr

/-- Embedding of `maxVersion` (index.ts lines 212-215):
`parseFloat(v1) >= parseFloat(v2) ? v1 : v2`. -/
def maxVersion (v1 v2 : TSVersion) : TSVersion :=
  if v2.val ≤ v1.val then v1 else v2

/-- JavaScript `Array.prototype.indexOf` on a version list: index of the first
occurrence, with `none` modelling the JavaScript result `-1`. -/
def jsIndexOf : List TSVersion → TSVersion → Option Nat
  | [], _ => none
  | x :: xs, v => if x = v then some 0 else (jsIndexOf xs v).map (· + 1)

/-- Modelled from the spec: the message of Node's `assert.notStrictEqual`
failure raised inside `next` when the version is absent from the supported
list (the assert library is an excluded collaborator; the message mentions
only the compared values, never a ts directory name). -/
def indexNotFoundMsg : String :=
  "Expected \x22actual\x22 to be strictly unequal to: -1"

/-- Modelled from the spec: message of a failed plain Node `assert`. -/
def indexOutOfRangeMsg : String :=
  "index out of range"

/-- Embedding of `next` (index.ts lines 217-222).  Note the source asserts
`index < supported.length`, which is always true once `indexOf` succeeded, so
the final array access `supported[index + 1]` can yield `undefined` (modelled
by `Option`) when `v` is the last supported version. -/
def next (supported : List TSVersion) (v : TSVersion) :
    Except String (Option TSVersion) :=
  match jsIndexOf supported v with
  | none => .error indexNotFoundMsg
  | some index =>
    if index < supported.length then .ok supported[index + 1]?
    else .error indexOutOfRangeMsg

/-- Embedding of `typesVersions.map(next)` (index.ts line 158): the versions
are looked up left to right and the first thrown assertion aborts the map. -/
def mapNext (supported : List TSVersion) :
    List TSVersion → Except String (List (Option TSVersion))
  | [] => .ok []
  | v :: vs => do
    let x ← next supported v
    let xs ← mapNext supported vs
    pure (x :: xs)

/-- JavaScript comparison `parseFloat(a) >= parseFloat(b)` where either side
may be `undefined`; `parseFloat(undefined)` is NaN and every comparison
involving NaN is false. -/
def jsGeVal : Option TSVersion → Option TSVersion → Bool
  | some a, some b => decide (b.val ≤ a.val)
  | _, _ => false

/-- Embedding of `maxVersion(minVersion, lows[i])` where `lows[i]` may be the
`undefined` produced by `next` on the last supported version: with `v2`
undefined the source comparison `parseFloat(v1) >= NaN` is false and the
function returns `v2`, i.e. `undefined`. -/
def jsMaxVersion (v1 : TSVersion) : Option TSVersion → Option TSVersion
  | some v2 => some (maxVersion v1 v2)
  | none => none

/-- One dispatched call `testTypesVersion(versionPath, low, hi, ..., isLatest)`
(index.ts line 173). -/
structure RangeCheck where
  path : String
  low : Option TSVersion
  hi : TSVersion
  isLatest : Bool
deriving DecidableEq, Repr

/-- Message of the per-range assert (index.ts lines 164-167). -/
def skipMsg (minVersion hi : TSVersion) : String :=
  "\x27\x22minimumTypeScriptVersion\x22: \x22" ++ minVersion.str ++
    "\x22\x27 in package.json skips ts" ++ hi.str ++ " folder."

/-- Range check built by one loop iteration (index.ts lines 162-173); `path.join`
of the excluded path module is modelled as slash concatenation. -/
def mkCheck (latest : TSVersion) (dirPath : String) (minVersion : TSVersion)
    (l : Option TSVersion) (h : TSVersion) : RangeCheck :=
  { path := if decide (h = latest) then dirPath else dirPath ++ "/ts" ++ h.str
    low := jsMaxVersion minVersion l
    hi := h
    isLatest := decide (h = latest) }

/-- Embedding of the range loop of `runTests` (index.ts lines 161-174).  The
first component records, in order, the `testTypesVersion` dispatches performed
before the loop finished or threw; the second component is the loop outcome. -/
def rangeLoop (latest : TSVersion) (dirPath : String) (minVersion : TSVersion) :
    List (Option TSVersion) → List TSVersion →
    List RangeCheck × Except String Unit
  | [], [] => ([], .ok ())
  | l :: ls, h :: hs =>
    let low := jsMaxVersion minVersion l
    if jsGeVal (some h) low then
      let rest := rangeLoop latest dirPath minVersion ls hs
      (mkCheck latest dirPath minVersion l h :: rest.1, rest.2)
    else
      ([], .error (skipMsg minVersion h))
  | _, _ => ([], .error (indexOutOfRangeMsg))

/-- Modelled from the spec: message of `assert.strictEqual` on mismatched
lengths (index.ts line 160; never reachable from `planAndRun`). -/
def lengthMismatchMsg : String :=
  "Expected values to be strictly equal"

/-- Embedding of the planning-and-dispatch phase of `runTests` for the
multi-version branch (index.ts lines 149 and 158-174): computes
`minVersion`, `lows = [lowest, ...typesVersions.map(next)]`,
`his = [...typesVersions, latest]`, asserts equal lengths, then runs the range
loop.  The first component is the ordered list of dispatched range checks. -/
def planAndRun (supported : List TSVersion) (lowest latest : TSVersion)
    (dirPath : String) (minimumTypeScriptVersion : TSVersion)
    (typesVersions : List TSVersion) :
    List RangeCheck × Except String Unit :=
  let minVersion := maxVersion minimumTypeScriptVersion lowest
  match mapNext supported typesVersions with
  | .error e => ([], .error e)
  | .ok nexts =>
    let lows := some lowest :: nexts
    let his := typesVersions ++ [latest]
    if lows.length = his.length then
      rangeLoop latest dirPath minVersion lows his
    else ([], .error lengthMismatchMsg)

/-- Message returned for an expected, ignored attw failure (index.ts line 192). -/
def ignoreMsg (dirName output : String) : String :=
  "Ignoring attw failure because \x22" ++ dirName ++
    "\x22 is listed in \x27failingPackages\x27.\n\n@arethetypeswrong/cli\n" ++ output

/-- Message of the error thrown when an allow-listed package passes attw
(index.ts line 194). -/
def stalePassMsg (dirName output : String) : String :=
  "attw passed: remove \x22" ++ dirName ++
    "\x22 from \x27failingPackages\x27 in attw.json\n\n" ++ output

/-- Message of the error thrown for an unexpected attw failure or tool error
(index.ts line 202). -/
def rejectMsg (output : String) : String :=
  "!@arethetypeswrong/cli\n" ++ output

/-- Modelled from the spec: `assertNever` (from the excluded utils package)
throws an unreachable-case assertion error mentioning the unexpected value. -/
def assertNeverMsg (status : String) : String :=
  "Unexpected value " ++ status

/-- Embedding of the reconciliation switch of `runTests` (index.ts lines
184-209).  `expectError` is `failingPackages?.includes(dirName)`, so `none`
models the `undefined` arising when `failingPackages` is absent; `status` is
the raw status string of the external checker.  `Except.error` models a thrown
error, `Except.ok` a normal return with the optional message.  Note the
`case false` inner switch has no `default`, so a status outside the three
known values falls through both switches to the final `return undefined`. -/
def reconcile (expectError : Option Bool) (status output dirName : String) :
    Except String (Option String) :=
  match expectError with
  | some true =>
    if status = ("error") then .ok none
    else if status = ("fail") then .ok (some (ignoreMsg dirName output))
    else if status = ("pass") then .error (stalePassMsg dirName output)
    else .error (assertNeverMsg status)
  | some false =>
    if status = ("error") ∨ status = ("fail") then .error (rejectMsg output)
    else if status = ("pass") then .ok none
    else .ok none
  | none => .ok none

/-- Embedding of the attw phase of `runTests` (index.ts lines 177-209): the
whole block is guarded by `!packageJson.nonNpm`.  The first component records
whether `runAreTheTypesWrong` was invoked; `status` and `output` are what the
external checker would report if invoked. -/
def attwPhase (nonNpm : Bool) (failingPackages : Option (List String))
    (dirName status output : String) :
    Bool × Except String (Option String) :=
  if nonNpm then (false, .ok none)
  else (true,
    reconcile (failingPackages.map fun l => l.contains dirName)
      status output dirName)

/-- Substring test on character lists, used to express that an error message
names a directory. -/
def listContainsSub (ndl : List Char) : List Char → Bool
  | [] => ndl.isPrefixOf []
  | c :: cs => ndl.isPrefixOf (c :: cs) || listContainsSub ndl cs

/-- Substring test on strings. -/
def strContains (hay ndl : String) : Bool :=
  listContainsSub ndl.toList hay.toList

/-- Sample version 3.0 used for concrete evaluations. -/
def v30 : TSVersion := ⟨"3.0", 30⟩

/-- Sample version 3.1 used for concrete evaluations. -/
def v31 : TSVersion := ⟨"3.1", 31⟩

/-- Sample version 3.2 used for concrete evaluations. -/
def v32 : TSVersion := ⟨"3.2", 32⟩

/-- Sample version 3.3 used for concrete evaluations. -/
def v33 : TSVersion := ⟨"3.3", 33⟩

/-- Sample version 4.0 used for concrete evaluations. -/
def v40 : TSVersion := ⟨"4.0", 40⟩

end Dtslint

namespace Dtslint

/-- Claim C6: for every declared package minimum version (including one below
the lowest supported version, or the unset sentinel, which the excluded
metadata reader materialises as the lowest version itself), the effective
minimum `maxVersion(declared, lowest)` computed at index.ts line 149 is
numerically at least the lowest supported version. -/
theorem maxVersion_ge_lowest (d lowest : TSVersion) :
    lowest.val ≤ (maxVersion d lowest).val := by
  unfold maxVersion
  split
  · assumption
  · exact le_refl _

/-- Claim C2: the reconciliation switch realises the six-entry truth table
exactly: (true, error) accepts silently; (true, fail) accepts with the
ignoring-reason message carrying the raw output; (true, pass) throws the
stale-allow-list error; (false, error) and (false, fail) throw surfacing the
raw output; (false, pass) accepts silently. -/
theorem reconcile_truth_table (output dirName : String) :
    reconcile (some true) ("error") output dirName = .ok none ∧
    reconcile (some true) ("fail") output dirName =
      .ok (some (ignoreMsg dirName output)) ∧
    reconcile (some true) ("pass") output dirName =
      .error (stalePassMsg dirName output) ∧
    reconcile (some false) ("error") output dirName =
      .error (rejectMsg output) ∧
    reconcile (some false) ("fail") output dirName =
      .error (rejectMsg output) ∧
    reconcile (some false) ("pass") output dirName = .ok none := by
  refine ⟨rfl, rfl, rfl, ?_, ?_, rfl⟩
  · simp [reconcile]
  · simp [reconcile]

/-- Claim C9: when `failingPackages` read from attw.json is undefined (or
null), `expectError` is undefined, neither switch case matches, and the attw
phase returns no message for every checker outcome, including fail and error;
the checker itself is still invoked. -/
theorem missing_failing_packages_silent (dirName status output : String) :
    reconcile none status output dirName = .ok none ∧
    attwPhase false none dirName status output = (true, .ok none) := by
  exact ⟨rfl, rfl⟩

/-- Claim C10: for a package whose package.json sets `nonNpm`, the attw check
and reconciliation are skipped entirely and no message is returned, whatever
the allow-list holds; the checker is invoked exactly when `nonNpm` is false. -/
theorem nonNpm_skips_attw (failingPackages : Option (List String))
    (dirName status output : String) :
    attwPhase true failingPackages dirName status output = (false, .ok none) ∧
    (attwPhase false failingPackages dirName status output).1 = true := by
  exact ⟨rfl, rfl⟩

/-- Claim C4 (code bug evidence): `next` on the last entry of the supported
list does not fail; `indexOf` succeeds, the bounds assert `index < length`
compares the found index (not `index + 1`) against the length and is therefore
vacuously true, and the function returns `supported[index + 1]`, which is
`undefined`.  Evaluated at the failing input `supported = [3.0, 3.1]`,
`v = 3.1`. -/
theorem next_last_entry_no_error :
    next [v30, v31] v31 = .ok none := by
  rfl

/-- Claim C7 (counterexample): with the expectation flag false and the checker
reporting a status outside pass/fail/error, the inner switch of `case false`
has no default, control falls through both switches to `return undefined`, and
the unknown status is silently accepted instead of failing fast. -/
theorem unknown_status_false_accepted :
    reconcile (some false) ("bogus") ("out") ("dir") = .ok none := by
  rfl

/-- Claim C7 (amended): only when the expectation flag is true does an outcome
value outside pass/fail/error hit the unreachable-case assertion (the
`default: assertNever(status)` of the `case true` switch); when the flag is
false such a status falls through both switches and is silently accepted. -/
theorem unknown_status_only_true_asserts (status output dirName : String)
    (h1 : status ≠ ("error")) (h2 : status ≠ ("fail"))
    (h3 : status ≠ ("pass")) :
    reconcile (some true) status output dirName =
      .error (assertNeverMsg status) ∧
    reconcile (some false) status output dirName = .ok none := by
  refine ⟨?_, ?_⟩ <;> simp [reconcile, h1, h2, h3]

/-- Evaluation witness for `unknown_status_only_true_asserts` at the concrete
status string "wat". -/
theorem unknown_status_only_true_asserts_witness :
    (("wat" : String) ≠ ("error") ∧ ("wat" : String) ≠ ("fail") ∧
      ("wat" : String) ≠ ("pass")) ∧
    (reconcile (some true) ("wat") ("o") ("d") =
        .error (assertNeverMsg ("wat")) ∧
      reconcile (some false) ("wat") ("o") ("d") = .ok none) :=
  ⟨⟨by decide, by decide, by decide⟩,
    unknown_status_only_true_asserts ("wat") ("o") ("d")
      (by decide) (by decide) (by decide)⟩

/-- Claim C1 (counterexample): with `supported = [3.0, 3.1]`, minimum unset
(3.0) and the strictly increasing cutoff list `[3.1]` whose entry occurs in
the supported list, the claim demands two ranges; instead `next(3.1)` yields
`undefined` (the vacuous bounds assert never fires), the second range's low is
`undefined`, the per-range assert fails, and planning ends in a configuration
error after a single dispatched range (which, moreover, carries
`isLatest = true` because its high 3.1 equals the latest version). -/
theorem planRanges_cutoff_at_latest_fails :
    planAndRun [v30, v31] v30 v31 ("/pkg") v30 [v31] =
      ([⟨"/pkg", some v30, v31, true⟩], .error (skipMsg v30 v31)) := by
  rfl

/-- Claim C5 (counterexample): with `supported = [3.0]` and a declared minimum
4.0 above the latest supported version, the single planned range fails the
`high ≥ low` assert, so `planRanges` ends in a configuration error and yields
no range at all, contradicting the unconditional one-range claim. -/
theorem empty_cutoffs_min_above_latest_fails :
    planAndRun [v30] v30 v30 ("/pkg") v40 [] =
      ([], .error (skipMsg v40 v30)) := by
  rfl

/-- Claim C8 (counterexample): with `supported = [3.0, 3.1, 3.2]`, minimum
unset and cutoffs `[3.1, 3.2]`, the per-range invariant for the third range
(low is the undefined successor of 3.2) fails only after the checks for the
first two ranges were already dispatched: the run ends in a configuration
error with two range checks executed, contradicting the claim that no range
check precedes a configuration error. -/
theorem checks_dispatched_before_error :
    planAndRun [v30, v31, v32] v30 v32 ("/pkg") v30 [v31, v32] =
      ([⟨"/pkg/ts3.1", some v30, v31, false⟩, ⟨"/pkg", some v32, v32, true⟩],
        .error (skipMsg v30 v32)) := by
  rfl

/-- Claim C3 (counterexample): declared minimum 4.0 numerically exceeds the
cutoff 3.0 (the high bound of the first range), yet because 3.0 is absent from
the supported list `[4.0]`, planning fails inside `next` with the
`assert.notStrictEqual` message, which does not name the offending ts3.0
directory. -/
theorem min_above_absent_cutoff_message :
    planAndRun [v40] v40 v40 ("/pkg") v40 [v30] =
      ([], .error indexNotFoundMsg) ∧
    strContains indexNotFoundMsg ("ts3.0") = false := by
  exact ⟨rfl, rfl⟩

/-- Left argument is bounded by `maxVersion`. -/
lemma val_le_maxVersion_left (v1 v2 : TSVersion) :
    v1.val ≤ (maxVersion v1 v2).val := by
  unfold maxVersion
  split
  · exact le_refl _
  · omega

/-- Right argument is bounded by `maxVersion`. -/
lemma val_le_maxVersion_right (v1 v2 : TSVersion) :
    v2.val ≤ (maxVersion v1 v2).val := by
  unfold maxVersion
  split
  · assumption
  · exact le_refl _

/-- Upper bounds of both arguments bound `maxVersion`. -/
lemma maxVersion_val_le {v1 v2 : TSVersion} {z : Int}
    (h1 : v1.val ≤ z) (h2 : v2.val ≤ z) : (maxVersion v1 v2).val ≤ z := by
  unfold maxVersion
  split
  · exact h1
  · exact h2

/-- Clamping `maxVersion d l` against `l` again is the identity (the shape of
`maxVersion(minVersion, lows[0])` at index.ts line 162, with
`minVersion = maxVersion(declared, lowest)` from line 149). -/
lemma maxVersion_absorb (d l : TSVersion) :
    maxVersion (maxVersion d l) l = maxVersion d l := by
  have h : l.val ≤ (maxVersion d l).val := val_le_maxVersion_right d l
  show (if l.val ≤ (maxVersion d l).val then maxVersion d l else l) = maxVersion d l
  exact if_pos h

/-- Characterisation of the per-range assert condition of index.ts line 165:
it holds exactly when the low bound is a defined version and both the clamp
minimum and that version are numerically at most the high bound. -/
lemma guard_iff (minV : TSVersion) (l : Option TSVersion) (h : TSVersion) :
    jsGeVal (some h) (jsMaxVersion minV l) = true ↔
      ∃ w, l = some w ∧ minV.val ≤ h.val ∧ w.val ≤ h.val := by
  cases l with
  | none =>
    simp [jsGeVal, jsMaxVersion]
  | some w =>
    simp only [jsMaxVersion, jsGeVal, decide_eq_true_eq]
    constructor
    · intro hle
      exact ⟨w, rfl, le_trans (val_le_maxVersion_left minV w) hle,
        le_trans (val_le_maxVersion_right minV w) hle⟩
    · rintro ⟨w', hww, h1, h2⟩
      obtain rfl : w = w' := Option.some.inj hww
      exact maxVersion_val_le h1 h2

/-- Every range check the loop dispatches satisfies the invariant of the
assert that guarded it: the low bound is defined and numerically at most the
high bound. -/
lemma rangeLoop_emitted (latest : TSVersion) (dir : String) (minV : TSVersion) :
    ∀ (ls : List (Option TSVersion)) (hs : List TSVersion) (r : RangeCheck),
      r ∈ (rangeLoop latest dir minV ls hs).1 →
      ∃ w, r.low = some w ∧ w.val ≤ r.hi.val := by
  intro ls
  induction ls with
  | nil =>
    intro hs r hr
    cases hs <;> simp [rangeLoop] at hr
  | cons l ls ih =>
    intro hs r hr
    cases hs with
    | nil => simp [rangeLoop] at hr
    | cons h hs =>
      by_cases hg : jsGeVal (some h) (jsMaxVersion minV l) = true
      · simp only [rangeLoop, hg, if_true, List.mem_cons] at hr
        rcases hr with hr | hr
        · obtain ⟨w, hw, hminle, hwle⟩ := (guard_iff minV l h).mp hg
          subst hr
          exact ⟨maxVersion minV w, by simp [mkCheck, hw, jsMaxVersion],
            maxVersion_val_le hminle hwle⟩
        · exact ih hs r hr
      · have hg' : jsGeVal (some h) (jsMaxVersion minV l) = false := by
          simpa [Bool.not_eq_true] using hg
        simp [rangeLoop, hg'] at hr

/-- When every planned range passes its assert, the loop dispatches exactly
one check per (low, high) pair, in order, and succeeds. -/
lemma rangeLoop_forall₂ (latest : TSVersion) (dir : String) (minV : TSVersion) :
    ∀ (ls : List (Option TSVersion)) (hs : List TSVersion),
      List.Forall₂ (fun l h => jsGeVal (some h) (jsMaxVersion minV l) = true)
        ls hs →
      rangeLoop latest dir minV ls hs =
        ((ls.zip hs).map fun p => mkCheck latest dir minV p.1 p.2, .ok ()) := by
  intro ls hs hf
  induction hf with
  | nil => simp [rangeLoop]
  | cons hg htl ih => simp [rangeLoop, hg, ih]

/-- When some high bound sits numerically below the clamp minimum, the loop
throws the skip-folder assert message of one of the high bounds at or before
that position. -/
lemma rangeLoop_fails_within (latest : TSVersion) (dir : String)
    (minV : TSVersion) :
    ∀ (hs1 : List TSVersion) (c : TSVersion) (hs2 : List TSVersion)
      (ls : List (Option TSVersion)),
      c.val < minV.val → ls.length = (hs1 ++ c :: hs2).length →
      ∃ h, h ∈ hs1 ++ [c] ∧
        (rangeLoop latest dir minV ls (hs1 ++ c :: hs2)).2 =
          .error (skipMsg minV h) := by
  intro hs1
  induction hs1 with
  | nil =>
    intro c hs2 ls hc hlen
    cases ls with
    | nil => simp at hlen
    | cons l ls =>
      refine ⟨c, by simp, ?_⟩
      have hg : jsGeVal (some c) (jsMaxVersion minV l) = false := by
        cases l with
        | none => simp [jsGeVal, jsMaxVersion]
        | some w =>
          simp only [jsMaxVersion, jsGeVal, decide_eq_false_iff_not, not_le]
          exact lt_of_lt_of_le hc (val_le_maxVersion_left minV w)
      simp [rangeLoop, hg]
  | cons h' hs1 ih =>
    intro c hs2 ls hc hlen
    cases ls with
    | nil => simp at hlen
    | cons l ls =>
      by_cases hg : jsGeVal (some h') (jsMaxVersion minV l) = true
      · obtain ⟨h, hhmem, herr⟩ := ih c hs2 ls hc (by simpa using hlen)
        refine ⟨h, ?_, ?_⟩
        · rcases List.mem_append.mp hhmem with hm | hm
          · exact List.mem_append_left _ (List.mem_cons_of_mem _ hm)
          · exact List.mem_append_right _ hm
        · simp [rangeLoop, hg, herr]
      · have hg' : jsGeVal (some h') (jsMaxVersion minV l) = false := by
          simpa [Bool.not_eq_true] using hg
        exact ⟨h', by simp, by simp [rangeLoop, hg']⟩

/-- Specification of `jsIndexOf` on a successful lookup. -/
lemma jsIndexOf_spec :
    ∀ (s : List TSVersion) (c : TSVersion) (i : Nat),
      jsIndexOf s c = some i → i < s.length ∧ s[i]? = some c := by
  intro s
  induction s with
  | nil => intro c i h; simp [jsIndexOf] at h
  | cons x xs ih =>
    intro c i h
    by_cases hx : x = c
    · simp [jsIndexOf, hx] at h
      subst hx
      simp [← h]
    · simp [jsIndexOf, hx] at h
      obtain ⟨j, hj, rfl⟩ := h
      obtain ⟨h1, h2⟩ := ih c j hj
      exact ⟨by simpa using Nat.succ_lt_succ h1, by simpa using h2⟩

/-- Membership implies a successful `jsIndexOf` lookup. -/
lemma jsIndexOf_of_mem :
    ∀ (s : List TSVersion) (c : TSVersion), c ∈ s →
      ∃ i, jsIndexOf s c = some i := by
  intro s
  induction s with
  | nil => intro c h; simp at h
  | cons x xs ih =>
    intro c h
    by_cases hx : x = c
    · exact ⟨0, by simp [jsIndexOf, hx]⟩
    · have hc : c ∈ xs := by
        rcases List.mem_cons.mp h with h1 | h1
        · exact absurd h1.symm hx
        · exact h1
      obtain ⟨j, hj⟩ := ih c hc
      exact ⟨j + 1, by simp [jsIndexOf, hx, hj]⟩

/-- For a version present in the supported list, `next` never throws (though
its result may be the `undefined` of an out-of-range access). -/
lemma next_ok_of_mem {s : List TSVersion} {c : TSVersion} (h : c ∈ s) :
    ∃ x, next s c = .ok x := by
  obtain ⟨i, hi⟩ := jsIndexOf_of_mem s c h
  obtain ⟨hlt, _⟩ := jsIndexOf_spec s c i hi
  exact ⟨s[i + 1]?, by simp [next, hi, hlt]⟩

/-- When every cutoff occurs in the supported list, the eager
`typesVersions.map(next)` of index.ts line 158 throws nothing and preserves
the length. -/
lemma mapNext_ok (s : List TSVersion) :
    ∀ cs : List TSVersion, (∀ c ∈ cs, c ∈ s) →
      ∃ ns, mapNext s cs = .ok ns ∧ ns.length = cs.length := by
  intro cs
  induction cs with
  | nil => intro _; exact ⟨[], rfl, rfl⟩
  | cons c cs ih =>
    intro hm
    obtain ⟨x, hx⟩ := next_ok_of_mem (hm c (by simp))
    obtain ⟨ns, hns, hlen⟩ := ih fun c' hc' => hm c' (by simp [hc'])
    refine ⟨x :: ns, ?_, by simp [hlen]⟩
    show (do
      let y ← next s c
      let ys ← mapNext s cs
      pure (y :: ys)) = Except.ok (x :: ns)
    rw [hx, hns]
    rfl

/-- On a sorted supported list, `next` of a member that has a strictly larger
member returns the immediate successor: a member strictly above the argument
and at most every member strictly above the argument. -/
lemma next_succ (s : List TSVersion)
    (hsort : List.Pairwise (fun a b => a.val < b.val) s)
    (c u : TSVersion) (hc : c ∈ s) (hu : u ∈ s) (hcu : c.val < u.val) :
    ∃ w, next s c = .ok (some w) ∧ w ∈ s ∧ c.val < w.val ∧
      ∀ u' ∈ s, c.val < u'.val → w.val ≤ u'.val := by
  obtain ⟨i, hidx⟩ := jsIndexOf_of_mem s c hc
  obtain ⟨hi, hgetc⟩ := jsIndexOf_spec s c i hidx
  obtain ⟨hi', hci⟩ := List.getElem?_eq_some_iff.mp hgetc
  have hsort' := List.pairwise_iff_getElem.mp hsort
  have hfind : ∀ u' : TSVersion, u' ∈ s → c.val < u'.val →
      ∃ j, ∃ hj : j < s.length, s[j] = u' ∧ i < j := by
    intro u' hu' hcu'
    obtain ⟨j, hj, hju⟩ := List.mem_iff_getElem.mp hu'
    refine ⟨j, hj, hju, ?_⟩
    by_contra hij
    push_neg at hij
    rcases Nat.lt_or_ge j i with hlt | hge
    · have := hsort' j i hj hi' hlt
      rw [hju, hci] at this
      omega
    · have : j = i := by omega
      subst this
      rw [hju] at hci
      subst hci
      omega
  obtain ⟨j, hj, hju, hij⟩ := hfind u hu hcu
  have hi1 : i + 1 < s.length := by omega
  refine ⟨s[i + 1], ?_, List.getElem_mem hi1, ?_, ?_⟩
  · simp [next, hidx, hi, List.getElem?_eq_getElem hi1]
  · have := hsort' i (i + 1) hi' hi1 (by omega)
    rw [hci] at this
    exact this
  · intro u' hu' hcu'
    obtain ⟨j', hj', hj'u, hij'⟩ := hfind u' hu' hcu'
    rcases Nat.lt_or_ge (i + 1) j' with hlt | hge
    · have := hsort' (i + 1) j' hi1 hj' hlt
      rw [hj'u] at this
      exact le_of_lt this
    · have : i + 1 = j' := by omega
      subst this
      rw [hj'u]

/-- Pointwise description of `zip` through `getElem?`. -/
lemma zip_getElem? {α β : Type} :
    ∀ (as : List α) (bs : List β) (i : Nat),
      (as.zip bs)[i]? = as[i]?.bind fun a => bs[i]?.map fun b => (a, b) := by
  intro as
  induction as with
  | nil => intro bs i; simp
  | cons a as ih =>
    intro bs i
    cases bs with
    | nil => simp
    | cons b bs =>
      cases i with
      | zero => simp
      | succ j => simp [ih]

/-- Construction of the loop guards for a sorted cutoff list strictly inside
the supported range: every `next` lookup succeeds with a defined successor and
every planned range passes its assert. -/
lemma guards_build (s : List TSVersion) (latest minV : TSVersion)
    (hsort : List.Pairwise (fun a b => a.val < b.val) s) (hlat : latest ∈ s) :
    ∀ (cs : List TSVersion) (w0 : TSVersion),
      (∀ c ∈ cs, c ∈ s) →
      List.Chain' (fun a b => a.val < b.val) cs →
      (∀ c ∈ cs, c.val < latest.val) →
      (∀ c ∈ cs, minV.val ≤ c.val) →
      minV.val ≤ latest.val →
      w0.val ≤ (cs.headD latest).val →
      ∃ ws, mapNext s cs = .ok (List.map some ws) ∧
        List.Forall₂ (fun c w => next s c = .ok (some w)) cs ws ∧
        List.Forall₂
          (fun l h => jsGeVal (some h) (jsMaxVersion minV l) = true)
          (some w0 :: List.map some ws) (cs ++ [latest]) := by
  intro cs
  induction cs with
  | nil =>
    intro w0 _ _ _ _ hml hw0
    refine ⟨[], rfl, .nil, List.Forall₂.cons ?_ .nil⟩
    exact (guard_iff minV (some w0) latest).mpr
      ⟨w0, rfl, hml, by simpa using hw0⟩
  | cons c cs ih =>
    intro w0 hmem hch hbelow hminle hml hw0
    have hc : c ∈ s := hmem c (List.mem_cons_self c cs)
    have hcl : c.val < latest.val := hbelow c (List.mem_cons_self c cs)
    obtain ⟨w1, hw1, hw1mem, hcw1, hwmin⟩ := next_succ s hsort c latest hc hlat hcl
    have hw1head : w1.val ≤ (cs.headD latest).val := by
      cases cs with
      | nil => simpa using hwmin latest hlat hcl
      | cons c2 cs2 =>
        have hcc2 : c.val < c2.val := (List.chain'_cons.mp hch).1
        simpa using hwmin c2 (hmem c2 (by simp)) hcc2
    obtain ⟨ws, hmap, hfor, hguards⟩ := ih w1
      (fun x hx => hmem x (List.mem_cons_of_mem c hx)) hch.tail
      (fun x hx => hbelow x (List.mem_cons_of_mem c hx))
      (fun x hx => hminle x (List.mem_cons_of_mem c hx)) hml hw1head
    refine ⟨w1 :: ws, ?_, List.Forall₂.cons hw1 hfor, ?_⟩
    · show (do
        let y ← next s c
        let ys ← mapNext s cs
        pure (y :: ys)) = Except.ok (List.map some (w1 :: ws))
      rw [hw1, hmap]
      rfl
    · refine List.Forall₂.cons ?_ hguards
      exact (guard_iff minV (some w0) c).mpr
        ⟨w0, rfl, hminle c (List.mem_cons_self c cs), by simpa using hw0⟩

/-- Claim C3 (amended): provided every cutoff occurs in the supported list, a
declared minimum numerically above some cutoff makes planning fail with the
skip-folder configuration error naming the ts directory of one of the
cutoffs, and every range check that was dispatched satisfies
`low` defined and `low ≤ high`. -/
theorem min_above_cutoff_plan_fails
    (supported : List TSVersion) (lowest latest : TSVersion) (dirPath : String)
    (d : TSVersion) (cs : List TSVersion) (c : TSVersion)
    (hmem : ∀ x ∈ cs, x ∈ supported) (hc : c ∈ cs) (habove : c.val < d.val) :
    (∃ h ∈ cs,
      (planAndRun supported lowest latest dirPath d cs).2 =
        .error (skipMsg (maxVersion d lowest) h)) ∧
    ∀ r ∈ (planAndRun supported lowest latest dirPath d cs).1,
      ∃ w, r.low = some w ∧ w.val ≤ r.hi.val := by
  obtain ⟨ns, hns, hlen⟩ := mapNext_ok supported cs hmem
  have hplan : planAndRun supported lowest latest dirPath d cs =
      rangeLoop latest dirPath (maxVersion d lowest)
        (some lowest :: ns) (cs ++ [latest]) := by
    simp [planAndRun, hns, hlen]
  obtain ⟨cs1, cs2, rfl⟩ := List.append_of_mem hc
  have hcval : c.val < (maxVersion d lowest).val :=
    lt_of_lt_of_le habove (val_le_maxVersion_left d lowest)
  have hre : (cs1 ++ c :: cs2) ++ [latest] = cs1 ++ c :: (cs2 ++ [latest]) := by
    simp
  have hlen' : (some lowest :: ns).length =
      (cs1 ++ c :: (cs2 ++ [latest])).length := by
    simp only [List.length_cons, hlen]
    simp
    omega
  obtain ⟨h, hhmem, herr⟩ := rangeLoop_fails_within latest dirPath
    (maxVersion d lowest) cs1 c (cs2 ++ [latest]) (some lowest :: ns)
    hcval hlen'
  constructor
  · refine ⟨h, ?_, ?_⟩
    · rcases List.mem_append.mp hhmem with hm | hm
      · exact List.mem_append_left _ hm
      · rw [List.mem_singleton.mp hm]
        exact List.mem_append_right _ (List.mem_cons_self c cs2)
    · rw [hplan, hre]
      exact herr
  · intro r hr
    rw [hplan] at hr
    exact rangeLoop_emitted latest dirPath (maxVersion d lowest) _ _ r hr

/-- Evaluation witness for `min_above_cutoff_plan_fails`: declared minimum 4.0
above the single cutoff 3.0 inside supported list [3.0, 3.1]. -/
theorem min_above_cutoff_plan_fails_witness :
    ((∀ x ∈ [v30], x ∈ [v30, v31]) ∧ v30 ∈ [v30] ∧ v30.val < v40.val) ∧
    ((∃ h ∈ [v30],
      (planAndRun [v30, v31] v30 v31 ("/pkg") v40 [v30]).2 =
        .error (skipMsg (maxVersion v40 v30) h)) ∧
    ∀ r ∈ (planAndRun [v30, v31] v30 v31 ("/pkg") v40 [v30]).1,
      ∃ w, r.low = some w ∧ w.val ≤ r.hi.val) :=
  ⟨⟨by decide, by decide, by decide⟩,
    min_above_cutoff_plan_fails [v30, v31] v30 v31 ("/pkg") v40 [v30] v30
      (by decide) (by decide) (by decide)⟩

/-- Claim C5 (amended): for an empty cutoff list, provided the effective
minimum is numerically at most the latest supported version, `planRanges`
yields exactly one range from the effective minimum to the latest version,
with `isLatest` true, validated against the package root directory. -/
theorem empty_cutoffs_single_range
    (supported : List TSVersion) (lowest latest : TSVersion) (dirPath : String)
    (d : TSVersion) (hle : (maxVersion d lowest).val ≤ latest.val) :
    planAndRun supported lowest latest dirPath d [] =
      ([{ path := dirPath, low := some (maxVersion d lowest), hi := latest,
          isLatest := true }], .ok ()) := by
  have hguard : jsGeVal (some latest) (some (maxVersion d lowest)) = true := by
    simp only [jsGeVal, decide_eq_true_eq]
    exact hle
  simp [planAndRun, mapNext, rangeLoop, jsMaxVersion, maxVersion_absorb,
    hguard, mkCheck]

/-- Evaluation witness for `empty_cutoffs_single_range` with supported list
[3.0, 3.1] and an unset (lowest) declared minimum. -/
theorem empty_cutoffs_single_range_witness :
    (maxVersion v30 v30).val ≤ v31.val ∧
    planAndRun [v30, v31] v30 v31 ("/pkg") v30 [] =
      ([{ path := ("/pkg"), low := some (maxVersion v30 v30), hi := v31,
          isLatest := true }], .ok ()) :=
  ⟨by decide,
    empty_cutoffs_single_range [v30, v31] v30 v31 ("/pkg") v30 (by decide)⟩

/-- Claim C8 (amended): the planning data (`minVersion`, `lows`, `his`) is
computed from metadata before the loop, so a `next` lookup failure aborts the
run with no range check dispatched; the per-range `high ≥ low` assert, by
contrast, runs inside the dispatch loop, but still every check that is
dispatched has a defined low bound at most its high bound (the offending
range itself is never dispatched). -/
theorem planning_error_dispatch_behavior
    (supported : List TSVersion) (lowest latest : TSVersion) (dirPath : String)
    (d : TSVersion) (cs : List TSVersion) (e : String) :
    (mapNext supported cs = .error e →
      planAndRun supported lowest latest dirPath d cs = ([], .error e)) ∧
    ∀ r ∈ (planAndRun supported lowest latest dirPath d cs).1,
      ∃ w, r.low = some w ∧ w.val ≤ r.hi.val := by
  constructor
  · intro he
    simp [planAndRun, he]
  · intro r hr
    cases hm : mapNext supported cs with
    | error e' =>
      rw [show planAndRun supported lowest latest dirPath d cs =
          ([], .error e') from by simp [planAndRun, hm]] at hr
      simp at hr
    | ok ns =>
      rw [show planAndRun supported lowest latest dirPath d cs =
          (if (some lowest :: ns).length = (cs ++ [latest]).length then
            rangeLoop latest dirPath (maxVersion d lowest)
              (some lowest :: ns) (cs ++ [latest])
          else ([], .error lengthMismatchMsg)) from by
        simp [planAndRun, hm]] at hr
      split at hr
      · exact rangeLoop_emitted latest dirPath _ _ _ r hr
      · simp at hr

/-- Evaluation witness for `planning_error_dispatch_behavior`: a cutoff absent
from the supported list aborts with no dispatch, and a concrete dispatched
check from the interleaved-failure run satisfies the range invariant. -/
theorem planning_error_dispatch_behavior_witness :
    planAndRun [v30] v30 v30 ("/pkg") v30 [v33] =
      ([], .error indexNotFoundMsg) ∧
    ∃ w, (⟨"/pkg/ts3.1", some v30, v31, false⟩ : RangeCheck).low = some w ∧
      w.val ≤ (⟨"/pkg/ts3.1", some v30, v31, false⟩ : RangeCheck).hi.val :=
  ⟨(planning_error_dispatch_behavior [v30] v30 v30 ("/pkg") v30 [v33]
      indexNotFoundMsg).1 (by rfl),
    (planning_error_dispatch_behavior [v30, v31, v32] v30 v32 ("/pkg") v30
      [v31, v32] indexNotFoundMsg).2
      ⟨"/pkg/ts3.1", some v30, v31, false⟩ (by decide)⟩

/-- Claim C1 (amended): for a non-empty strictly increasing cutoff list whose
entries occur in the (sorted) supported list, provided additionally that every
cutoff is numerically below the latest supported version (which itself occurs
in the supported list) and that the effective minimum is numerically at most
every cutoff, `planRanges` succeeds with exactly n+1 ranges in order: range
i's high is cutoff i+1 and the last range's high is the latest version, range
0's low is the effective minimum, each subsequent range's low is the supported
version immediately following the previous cutoff clamped upward by the
effective minimum, and only the final range has `isLatest = true`. -/
theorem planRanges_nonempty_cutoffs
    (supported : List TSVersion) (lowest latest : TSVersion) (dirPath : String)
    (d : TSVersion) (cs : List TSVersion)
    (hsort : List.Pairwise (fun a b => a.val < b.val) supported)
    (hlat : latest ∈ supported)
    (hne : cs ≠ [])
    (hinc : List.Pairwise (fun a b => a.val < b.val) cs)
    (hmem : ∀ c ∈ cs, c ∈ supported)
    (hbelow : ∀ c ∈ cs, c.val < latest.val)
    (hmin : ∀ c ∈ cs, (maxVersion d lowest).val ≤ c.val) :
    ∃ R, planAndRun supported lowest latest dirPath d cs = (R, .ok ()) ∧
      R.length = cs.length + 1 ∧
      R[0]?.map RangeCheck.low = some (some (maxVersion d lowest)) ∧
      (∀ i, i < cs.length →
        R[i]?.map RangeCheck.hi = cs[i]? ∧
        R[i]?.map RangeCheck.isLatest = some false) ∧
      R[cs.length]?.map RangeCheck.hi = some latest ∧
      R[cs.length]?.map RangeCheck.isLatest = some true ∧
      ∀ i c, cs[i]? = some c →
        ∃ w, next supported c = .ok (some w) ∧
          R[i + 1]?.map RangeCheck.low =
            some (some (maxVersion (maxVersion d lowest) w)) := by
  obtain ⟨c0, cs', rfl⟩ := List.exists_cons_of_ne_nil hne
  have hml : (maxVersion d lowest).val ≤ latest.val :=
    le_of_lt (lt_of_le_of_lt (hmin c0 (by simp)) (hbelow c0 (by simp)))
  have hw0 : lowest.val ≤ ((c0 :: cs').headD latest).val := by
    simpa using le_trans (val_le_maxVersion_right d lowest) (hmin c0 (by simp))
  obtain ⟨ws, hmap, hfor, hguards⟩ := guards_build supported latest
    (maxVersion d lowest) hsort hlat (c0 :: cs') lowest hmem hinc.chain'
    hbelow hmin hml hw0
  have hws : ws.length = cs'.length + 1 := by
    simpa using hfor.length_eq.symm
  have hlen2 : (some lowest :: List.map some ws).length =
      ((c0 :: cs') ++ [latest]).length := by
    simp [hws]
  have heq : planAndRun supported lowest latest dirPath d (c0 :: cs') =
      rangeLoop latest dirPath (maxVersion d lowest)
        (some lowest :: List.map some ws) ((c0 :: cs') ++ [latest]) := by
    simp only [planAndRun, hmap]
    rw [if_pos hlen2]
  have hplanEq : planAndRun supported lowest latest dirPath d (c0 :: cs') =
      (((some lowest :: List.map some ws).zip ((c0 :: cs') ++ [latest])).map
        (fun p => mkCheck latest dirPath (maxVersion d lowest) p.1 p.2),
        .ok ()) := by
    rw [heq, rangeLoop_forall₂ _ _ _ _ _ hguards]
  set R := ((some lowest :: List.map some ws).zip
      ((c0 :: cs') ++ [latest])).map
      (fun p => mkCheck latest dirPath (maxVersion d lowest) p.1 p.2) with hR
  have hRget : ∀ (i : Nat) (a : Option TSVersion) (b : TSVersion),
      (some lowest :: List.map some ws)[i]? = some a →
      ((c0 :: cs') ++ [latest])[i]? = some b →
      R[i]? = some (mkCheck latest dirPath (maxVersion d lowest) a b) := by
    intro i a b ha hb
    rw [hR, List.getElem?_map, zip_getElem?, ha, hb]
    rfl
  have hlowslen : (some lowest :: List.map some ws).length = cs'.length + 2 := by
    simp [hws]
  have hhislen : ((c0 :: cs') ++ [latest]).length = cs'.length + 2 := by
    simp
  refine ⟨R, hplanEq, ?_, ?_, ?_, ?_, ?_, ?_⟩
  · rw [hR]
    simp [hws]
  · have h0 := hRget 0 (some lowest) c0 (by simp) (by simp)
    rw [h0]
    simp [mkCheck, jsMaxVersion, maxVersion_absorb]
  · intro i hilt
    have hia : i < (some lowest :: List.map some ws).length := by
      rw [hlowslen]
      simp at hilt
      omega
    have hha : (some lowest :: List.map some ws)[i]? =
        some ((some lowest :: List.map some ws)[i]) :=
      List.getElem?_eq_getElem hia
    have hhis : ((c0 :: cs') ++ [latest])[i]? = (c0 :: cs')[i]? :=
      List.getElem?_append_left hilt
    have hgetc : (c0 :: cs')[i]? = some ((c0 :: cs')[i]) :=
      List.getElem?_eq_getElem hilt
    have hgot := hRget i _ ((c0 :: cs')[i]) hha (by rw [hhis]; exact hgetc)
    have hnl : (c0 :: cs')[i] ≠ latest := by
      intro hcl
      have := hbelow ((c0 :: cs')[i]) (List.getElem_mem hilt)
      rw [hcl] at this
      omega
    constructor
    · rw [hgot, hgetc]
      simp [mkCheck]
    · rw [hgot]
      simp [mkCheck, hnl]
  · have hib : ((c0 :: cs') ++ [latest])[(c0 :: cs').length]? = some latest :=
      List.getElem?_concat_length _ _
    have hia : (c0 :: cs').length < (some lowest :: List.map some ws).length := by
      rw [hlowslen]
      simp
    have hha : (some lowest :: List.map some ws)[(c0 :: cs').length]? =
        some ((some lowest :: List.map some ws)[(c0 :: cs').length]) :=
      List.getElem?_eq_getElem hia
    have hgot := hRget ((c0 :: cs').length) _ latest hha hib
    rw [hgot]
    simp [mkCheck]
  · have hib : ((c0 :: cs') ++ [latest])[(c0 :: cs').length]? = some latest :=
      List.getElem?_concat_length _ _
    have hia : (c0 :: cs').length < (some lowest :: List.map some ws).length := by
      rw [hlowslen]
      simp
    have hha : (some lowest :: List.map some ws)[(c0 :: cs').length]? =
        some ((some lowest :: List.map some ws)[(c0 :: cs').length]) :=
      List.getElem?_eq_getElem hia
    have hgot := hRget ((c0 :: cs').length) _ latest hha hib
    rw [hgot]
    simp [mkCheck]
  · intro i c hcg
    obtain ⟨hlti, hceq⟩ := List.getElem?_eq_some_iff.mp hcg
    have hiw : i < ws.length := by
      rw [hws]
      simpa using hlti
    have hpoint := (List.forall₂_iff_get.mp hfor).2 i hlti hiw
    simp only [List.get_eq_getElem] at hpoint
    rw [hceq] at hpoint
    refine ⟨ws[i], hpoint, ?_⟩
    have hha : (some lowest :: List.map some ws)[i + 1]? = some (some ws[i]) := by
      simp [List.getElem?_map, List.getElem?_eq_getElem hiw]
    have hib : i + 1 < ((c0 :: cs') ++ [latest]).length := by
      rw [hhislen]
      simp at hlti
      omega
    have hhb : ((c0 :: cs') ++ [latest])[i + 1]? =
        some (((c0 :: cs') ++ [latest])[i + 1]) :=
      List.getElem?_eq_getElem hib
    have hgot := hRget (i + 1) (some ws[i]) _ hha hhb
    rw [hgot]
    simp [mkCheck, jsMaxVersion]

/-- Evaluation witness for `planRanges_nonempty_cutoffs`: supported list
[3.0, 3.1, 3.2, 3.3], minimum unset (3.0) and the single cutoff 3.1, giving
the two ranges [3.0, 3.1] (ts3.1 directory) and [3.2, 3.3] (root, latest). -/
theorem planRanges_nonempty_cutoffs_witness :
    (List.Pairwise (fun a b => a.val < b.val) [v30, v31, v32, v33] ∧
      v33 ∈ [v30, v31, v32, v33] ∧
      ([v31] : List TSVersion) ≠ [] ∧
      List.Pairwise (fun a b => a.val < b.val) [v31] ∧
      (∀ c ∈ [v31], c ∈ [v30, v31, v32, v33]) ∧
      (∀ c ∈ [v31], c.val < v33.val) ∧
      (∀ c ∈ [v31], (maxVersion v30 v30).val ≤ c.val)) ∧
    (∃ R, planAndRun [v30, v31, v32, v33] v30 v33 ("/pkg") v30 [v31] =
        (R, .ok ()) ∧
      R.length = ([v31] : List TSVersion).length + 1 ∧
      R[0]?.map RangeCheck.low = some (some (maxVersion v30 v30)) ∧
      (∀ i, i < ([v31] : List TSVersion).length →
        R[i]?.map RangeCheck.hi = ([v31] : List TSVersion)[i]? ∧
        R[i]?.map RangeCheck.isLatest = some false) ∧
      R[([v31] : List TSVersion).length]?.map RangeCheck.hi = some v33 ∧
      R[([v31] : List TSVersion).length]?.map RangeCheck.isLatest = some true ∧
      ∀ i c, ([v31] : List TSVersion)[i]? = some c →
        ∃ w, next [v30, v31, v32, v33] c = .ok (some w) ∧
          R[i + 1]?.map RangeCheck.low =
            some (some (maxVersion (maxVersion v30 v30) w))) :=
  ⟨⟨by decide, by decide, by decide, by decide, by decide, by decide,
      by decide⟩,
    planRanges_nonempty_cutoffs [v30, v31, v32, v33] v30 v33 ("/pkg") v30
      [v31] (by decide) (by decide) (by decide) (by decide) (by decide)
      (by decide) (by decide)⟩

end Dtslint
